import Mathlib

/-!
Verification of the NMEA GPS-parsing pipeline: a shallow embedding of the
checksum verifier, the $GPRMC field parser with coordinate conversion, the
temporal and spatial deduplicators and the route-URL formatter, together with
theorems settling the specification's claims about them.

Conventions of the embedding:
* a C++ `std::string` is a `List Char`; bytes are `Char.toNat % 256`
  (the sources handle single-byte ASCII text);
* `double` values flowing through `strtod` and the coordinate conversion are
  modelled by `DVal` — finite values kept exact in `ℚ`, signed infinities and
  NaN explicit; record fields and the dedup/output stages, which the sources
  only ever feed finite values of interest, use plain `ℚ`;
* fallible library calls (`std::stod`, `sscanf`) are modelled as `Option`
  returning functions.
-/

/-- Whitespace of the C locale's `isspace`, which `sscanf` and `strtod` skip:
space, tab, newline, vertical tab, form feed, carriage return. -/
def isCSpace (c : Char) : Bool :=
  c.toNat = 32 || c.toNat = 9 || c.toNat = 10 ||
  c.toNat = 11 || c.toNat = 12 || c.toNat = 13

/-- Hexadecimal digit test, as the C library's `%X` conversion accepts. -/
def isHexDigitC (c : Char) : Bool :=
  (48 ≤ c.toNat && c.toNat ≤ 57) ||
  (65 ≤ c.toNat && c.toNat ≤ 70) ||
  (97 ≤ c.toNat && c.toNat ≤ 102)

/-- Value of a hexadecimal digit (0 for non-digits; only used under
`isHexDigitC`). -/
def hexVal (c : Char) : Nat :=
  if 48 ≤ c.toNat && c.toNat ≤ 57 then c.toNat - 48
  else if 65 ≤ c.toNat && c.toNat ≤ 70 then c.toNat - 55
  else if 97 ≤ c.toNat && c.toNat ≤ 102 then c.toNat - 87
  else 0

/-- Tri-state result of `verify_checksum`, from `nmea_parser.h`. -/
inductive ChecksumResult where
  | ok
  | incomplete
  | mismatch
deriving DecidableEq

/-- Split a list at its LAST `'*'`: `rbreakStar s = some (b, a)` when
`s = b ++ '*' :: a` with no `'*'` in `a`; `none` when `s` has no `'*'`.
Models `std::string::rfind('*')`. -/
def rbreakStar : List Char → Option (List Char × List Char)
  | [] => none
  | c :: t =>
    match rbreakStar t with
    | some (b, a) => some (c :: b, a)
    | none => if c = '*' then some ([], t) else none

/-- XOR-fold of the bytes of a character list, as the `computed ^=
static_cast<uint8_t>(sentence[i])` loop of `verify_checksum` accumulates. -/
def xorFoldBytes (l : List Char) : Nat :=
  l.foldl (fun a c => Nat.xor a (c.toNat % 256)) 0

/-- Models `sscanf(p, "%02X", &expected)` of glibc on the NUL-terminated text
`p`: skip leading C whitespace (not counted against the field width), then
within a field width of two characters read an optional sign and then greedily
hexadecimal digits; the conversion succeeds iff at least one hex digit is
read, and stores the (unsigned, mod 2^32) value.  With width 2 a sign leaves
room for a single digit, and a `0x` prefix never fits a digit, so it
degenerates to the digit `0`. -/
def sscanfHex2 (s : List Char) : Option Nat :=
  match s.dropWhile (fun c => isCSpace c) with
  | [] => none
  | c1 :: rest1 =>
    if c1 = '-' then
      match rest1 with
      | [] => none
      | c2 :: _ => if isHexDigitC c2 then some ((2 ^ 32 - hexVal c2) % 2 ^ 32) else none
    else if c1 = '+' then
      match rest1 with
      | [] => none
      | c2 :: _ => if isHexDigitC c2 then some (hexVal c2) else none
    else if isHexDigitC c1 then
      match rest1 with
      | [] => some (hexVal c1)
      | c2 :: _ =>
        if isHexDigitC c2 then some (16 * hexVal c1 + hexVal c2) else some (hexVal c1)
    else none

/-- `verify_checksum` from `nmea_parser.cpp`: reject (as `incomplete`) a line
not starting with `'$'`, with no `'*'`, with fewer than two characters after
the last `'*'`, or whose checksum text fails the `%02X` conversion; otherwise
compare the XOR-fold of the bytes strictly between `'$'` and the last `'*'`
with the low byte of the converted value. -/
def verify_checksum (s : List Char) : ChecksumResult :=
  match s with
  | [] => ChecksumResult.incomplete
  | c0 :: body =>
    if c0 ≠ '$' then ChecksumResult.incomplete
    else
      match rbreakStar body with
      | none => ChecksumResult.incomplete
      | some (before, after) =>
        if after.length < 2 then ChecksumResult.incomplete
        else
          match sscanfHex2 after with
          | none => ChecksumResult.incomplete
          | some expected =>
            if xorFoldBytes before = expected % 256 then ChecksumResult.ok
            else ChecksumResult.mismatch

/-- `split(s, ',')` from `nmea_parser.cpp`: split on every comma, preserving
empty fields; the result always has one more entry than there are commas. -/
def splitComma : List Char → List (List Char)
  | [] => [[]]
  | c :: t =>
    if c = ',' then [] :: splitComma t
    else
      match splitComma t with
      | [] => [[c]]
      | f :: r => (c :: f) :: r

/-- `sentence.substr(0, star)` where `star = sentence.rfind('*')`: the text
before the last `'*'`, or the whole text when there is none (the body that
`parse_gprmc` splits into fields). -/
def stripChecksumTail (s : List Char) : List Char :=
  match rbreakStar s with
  | some (b, _) => b
  | none => s

/-- Field `i` of a sentence after checksum-tail stripping and comma
splitting (empty when the sentence has fewer fields). -/
def getField (s : List Char) (i : Nat) : List Char :=
  (splitComma (stripChecksumTail s)).getD i []

/-- Index of the first `'.'`, as `raw.find('.')` returns. -/
def findDot : List Char → Option Nat
  | [] => none
  | c :: t => if c = '.' then some 0 else (findDot t).map (· + 1)

/-- Value of a list of decimal digit characters read most-significant first. -/
def digitsVal (l : List Char) : Nat :=
  l.foldl (fun a c => 10 * a + (c.toNat - 48)) 0

/-- Decimal digit test of the C locale's `isdigit`, which `strtod` uses. -/
def isDigitC (c : Char) : Bool :=
  48 ≤ c.toNat && c.toNat ≤ 57

/-- Exponent part of a `strtod` literal, after the `e`/`E`: optional sign and
digits.  When no digit follows, `strtod` does not consume the exponent and the
value is unscaled, hence 0 here. -/
def expVal (s : List Char) : Int :=
  let t := if s.head? = some '-' ∨ s.head? = some '+' then s.tail else s
  let ds := t.takeWhile fun c => isDigitC c
  if ds = [] then 0
  else if s.head? = some '-' then -(digitsVal ds : Int) else (digitsVal ds : Int)

/-- A double value as `std::stod` can produce it: a finite value (kept exact
in `ℚ`), a signed infinity, or NaN. -/
inductive DVal where
  | fin (q : ℚ)
  | pinf
  | ninf
  | nan
deriving DecidableEq

/-- IEEE addition, as the source's `degrees + minutes / 60.0` uses it:
finite values exact, infinities absorb finite values, opposite infinities and
NaN give NaN. -/
def DVal.add : DVal → DVal → DVal
  | DVal.nan, _ => DVal.nan
  | _, DVal.nan => DVal.nan
  | DVal.fin a, DVal.fin b => DVal.fin (a + b)
  | DVal.pinf, DVal.ninf => DVal.nan
  | DVal.ninf, DVal.pinf => DVal.nan
  | DVal.pinf, _ => DVal.pinf
  | DVal.ninf, _ => DVal.ninf
  | DVal.fin _, DVal.pinf => DVal.pinf
  | DVal.fin _, DVal.ninf => DVal.ninf

/-- IEEE division by the positive constant 60.0. -/
def DVal.div60 : DVal → DVal
  | DVal.fin q => DVal.fin (q / 60)
  | DVal.pinf => DVal.pinf
  | DVal.ninf => DVal.ninf
  | DVal.nan => DVal.nan

/-- IEEE negation. -/
def DVal.neg : DVal → DVal
  | DVal.fin q => DVal.fin (-q)
  | DVal.pinf => DVal.ninf
  | DVal.ninf => DVal.pinf
  | DVal.nan => DVal.nan

/-- `std::isnan`. -/
def DVal.isnan : DVal → Bool
  | DVal.nan => true
  | _ => false

/-- IEEE multiplication by a positive finite constant (the source multiplies
the speed by `kKnotsToMps = 0.514444`). -/
def DVal.mulPos : DVal → ℚ → DVal
  | DVal.fin q, k => DVal.fin (q * k)
  | DVal.pinf, _ => DVal.pinf
  | DVal.ninf, _ => DVal.ninf
  | DVal.nan, _ => DVal.nan

/-- The exact rational of a finite double, and 0 for the non-finite values:
record fields are modelled as exact rationals, and the (pathological but
reachable) non-finite values a successful parse can store — an infinite
coordinate, a nan speed — have no rational counterpart; no claim concerns the
stored value of a non-finite field. -/
def DVal.projQ : DVal → ℚ
  | DVal.fin q => q
  | _ => 0

/-- Case-insensitive match of one character against a lowercase pattern
character (case folding applies only when the pattern is a letter). -/
def charCI (c lo : Char) : Bool :=
  c.toNat = lo.toNat ||
    (97 ≤ lo.toNat && lo.toNat ≤ 122 && c.toNat + 32 = lo.toNat)

/-- Case-insensitive prefix test against a lowercase pattern, as `strtod`
matches the `inf`/`infinity`/`nan` forms and the `0x` prefix. -/
def prefixCI : List Char → List Char → Bool
  | [], _ => true
  | _ :: _, [] => false
  | p :: ps, c :: cs => charCI c p && prefixCI ps cs

/-- Value of a list of hexadecimal digit characters, most significant
first. -/
def hexDigitsVal (l : List Char) : Nat :=
  l.foldl (fun a c => 16 * a + hexVal c) 0

/-- The exact value `m * base ^ e`. -/
def sciVal (base m : Nat) (e : Int) : ℚ :=
  (m : ℚ) * (base : ℚ) ^ e

/-- Integer-arithmetic test for `B ≤ m * base ^ e`. -/
def sciGe (base m : Nat) (e : Int) (B : Nat) : Bool :=
  if 0 ≤ e then B ≤ m * base ^ e.toNat else B * base ^ (-e).toNat ≤ m

/-- The value `m * base ^ e` is nonzero yet below the smallest normal double
`2 ^ (-1022)`. -/
def tinyNonzero (base m : Nat) (e : Int) : Bool :=
  m ≠ 0 && (if 0 ≤ e then false else m * 2 ^ 1022 < base ^ (-e).toNat)

/-- The value `m * base ^ e` is an exact multiple of `2 ^ (-1074)`, the
subnormal step of a double. -/
def exactAt1074 (base m : Nat) (e : Int) : Bool :=
  if 0 ≤ e then true else (m * 2 ^ 1074) % base ^ (-e).toNat = 0

/-- The ERANGE condition on which `std::stod` throws `out_of_range`: the
exact value reaches the rounding boundary to infinity (`2^1024 - 2^970`,
round-to-nearest-even), or it underflows — nonzero, below the smallest
normal, and not exactly representable at the subnormal step (IEEE underflow
after rounding with inexactness, which glibc reports as ERANGE). -/
def stodOutOfRange (base m : Nat) (e : Int) : Bool :=
  sciGe base m e (2 ^ 1024 - 2 ^ 970) ||
    (tinyNonzero base m e && !exactAt1074 base m e)

/-- Models `std::stod` (C `strtod`, C locale): skip leading whitespace, read
an optional sign, then the longest prefix of one of the `strtod` forms —
`inf`/`infinity` or `nan(…)` (case-insensitive), a C99 hexadecimal literal
`0x… [. …] [p±…]`, or a decimal literal with optional fraction and optional
exponent.  `none` models a throw: `invalid_argument` when no conversion can
be performed (a bare `0x` with no hex digit falls back to the decimal prefix
`0`, and an exponent letter with no digits is not consumed), `out_of_range`
when the value over- or underflows the double range (`stodOutOfRange`); the
sources catch both alike.  In-range finite values are kept exact in `ℚ`
rather than rounded to the nearest double. -/
def stod (s : List Char) : Option DVal :=
  let s1 := s.dropWhile fun c => isCSpace c
  let neg : Bool := s1.head? = some '-'
  let s2 := if s1.head? = some '-' ∨ s1.head? = some '+' then s1.tail else s1
  if prefixCI ['i', 'n', 'f'] s2 then some (if neg then DVal.ninf else DVal.pinf)
  else if prefixCI ['n', 'a', 'n'] s2 then some DVal.nan
  else
    let hexBody := s2.drop 2
    let hi := hexBody.takeWhile fun c => isHexDigitC c
    let hrest := hexBody.dropWhile fun c => isHexDigitC c
    let hf := if hrest.head? = some '.' then hrest.tail.takeWhile fun c => isHexDigitC c else []
    let hrest2 := if hrest.head? = some '.' then hrest.tail.dropWhile fun c => isHexDigitC c
      else hrest
    if prefixCI ['0', 'x'] s2 ∧ ¬(hi = [] ∧ hf = []) then
      let m := hexDigitsVal (hi ++ hf)
      let p : Int := if hrest2.head? = some 'p' ∨ hrest2.head? = some 'P' then expVal hrest2.tail
        else 0
      let e : Int := p - 4 * hf.length
      if stodOutOfRange 2 m e then none
      else some (DVal.fin (if neg then -sciVal 2 m e else sciVal 2 m e))
    else
      let ip := s2.takeWhile fun c => isDigitC c
      let s3 := s2.dropWhile fun c => isDigitC c
      let fp := if s3.head? = some '.' then s3.tail.takeWhile fun c => isDigitC c else []
      let s4 := if s3.head? = some '.' then s3.tail.dropWhile fun c => isDigitC c else s3
      if ip = [] ∧ fp = [] then none
      else
        let m := digitsVal (ip ++ fp)
        let e10 : Int := if s4.head? = some 'e' ∨ s4.head? = some 'E' then expVal s4.tail else 0
        let e : Int := e10 - fp.length
        if stodOutOfRange 10 m e then none
        else some (DVal.fin (if neg then -sciVal 10 m e else sciVal 10 m e))

/-- `nmea_to_decimal` from `nmea_parser.cpp`: split a `DD[D]MM.MMMM`
coordinate at two characters before the first `'.'` into a degree and a
minute portion, convert both with `stod`, return `degrees + minutes/60`
negated for the southern/western hemisphere; a `stod` throw is caught and
NaN returned, as on an empty string or a missing or too-early decimal
point. -/
def nmea_to_decimal (raw : List Char) (hem : Char) : DVal :=
  if raw = [] then DVal.nan
  else
    match findDot raw with
    | none => DVal.nan
    | some dot =>
      if dot < 2 then DVal.nan
      else
        match stod (raw.take (dot - 2)), stod (raw.drop (dot - 2)) with
        | some degrees, some minutes =>
          let dd := degrees.add minutes.div60
          if hem = 'S' ∨ hem = 'W' then dd.neg else dd
        | some _, none => DVal.nan
        | none, _ => DVal.nan

/-- The record a successful parse produces, from `nmea_parser.h`. -/
structure NmeaRecord where
  timestamp : List Char
  latitude : ℚ
  longitude : ℚ
  speed_mps : ℚ
deriving DecidableEq

/-- The knots → metres/second factor `kKnotsToMps = 0.514444`. -/
def knotsToMps : ℚ := 514444 / 1000000

/-- `parse_gprmc` from `nmea_parser.cpp`, as a total function returning
`none` where the source returns `false`: strip the checksum tail, split on
commas, require at least 8 fields, a `$GPRMC`/`$GNRMC` identifier, an active
(`'A'`) status, a non-empty timestamp, single-character hemisphere fields and
non-NaN coordinate conversions; the speed field defaults to 0 when empty or
when `stod` throws. -/
def parse_gprmc (sentence : List Char) : Option NmeaRecord :=
  let fields := splitComma (stripChecksumTail sentence)
  if fields.length < 8 then none
  else if fields.getD 0 [] ≠ "$GPRMC".toList ∧ fields.getD 0 [] ≠ "$GNRMC".toList then none
  else if fields.getD 2 [] = [] ∨ (fields.getD 2 []).headD ' ' ≠ 'A' then none
  else if fields.getD 1 [] = [] then none
  else if (fields.getD 4 []).length ≠ 1 ∨ (fields.getD 6 []).length ≠ 1 then none
  else
    let lat := nmea_to_decimal (fields.getD 3 []) ((fields.getD 4 []).headD ' ')
    let lon := nmea_to_decimal (fields.getD 5 []) ((fields.getD 6 []).headD ' ')
    if lat.isnan ∨ lon.isnan then none
    else
      let speed_knots := (stod (fields.getD 7 [])).getD (DVal.fin 0)
      some ⟨fields.getD 1 [], lat.projQ, lon.projQ, (speed_knots.mulPos knotsToMps).projQ⟩

/-- `parse_gprmc` in its source signature `(sentence, out&) → bool`, the
out-parameter made explicit: every early `return false` leaves `out` as it
was, and the final success overwrites all four fields. -/
def parse_gprmc_impl (sentence : List Char) (out : NmeaRecord) : Bool × NmeaRecord :=
  let fields := splitComma (stripChecksumTail sentence)
  if fields.length < 8 then (false, out)
  else if fields.getD 0 [] ≠ "$GPRMC".toList ∧ fields.getD 0 [] ≠ "$GNRMC".toList then (false, out)
  else if fields.getD 2 [] = [] ∨ (fields.getD 2 []).headD ' ' ≠ 'A' then (false, out)
  else if fields.getD 1 [] = [] then (false, out)
  else if (fields.getD 4 []).length ≠ 1 ∨ (fields.getD 6 []).length ≠ 1 then (false, out)
  else
    let lat := nmea_to_decimal (fields.getD 3 []) ((fields.getD 4 []).headD ' ')
    let lon := nmea_to_decimal (fields.getD 5 []) ((fields.getD 6 []).headD ' ')
    if lat.isnan ∨ lon.isnan then (false, out)
    else
      let speed_knots := (stod (fields.getD 7 [])).getD (DVal.fin 0)
      (true, ⟨fields.getD 1 [], lat.projQ, lon.projQ, (speed_knots.mulPos knotsToMps).projQ⟩)

/-- Strict lexicographic order on character lists by byte value, the order
`std::map<std::string, ...>` keys follow (`std::less<std::string>`). -/
def lexLt : List Char → List Char → Bool
  | [], [] => false
  | [], _ :: _ => true
  | _ :: _, [] => false
  | a :: s, b :: t =>
    if a.toNat < b.toNat then true
    else if b.toNat < a.toNat then false
    else lexLt s t

/-- Insertion into an association list kept strictly sorted by `lexLt`,
overwriting an equal key: the effect of `seen[r.timestamp] = r` on a
`std::map` whose entries are listed in key order. -/
def mapInsert (k : List Char) (v : NmeaRecord) :
    List (List Char × NmeaRecord) → List (List Char × NmeaRecord)
  | [] => [(k, v)]
  | (k', v') :: t =>
    if lexLt k k' then (k, v) :: (k', v') :: t
    else if lexLt k' k then (k', v') :: mapInsert k v t
    else (k, v) :: t

/-- One iteration of the `seen[r.timestamp] = r` loop. -/
def dedupStep (m : List (List Char × NmeaRecord)) (r : NmeaRecord) :
    List (List Char × NmeaRecord) :=
  mapInsert r.timestamp r m

/-- Lookup in the association list, first match wins (unique keys when the
list is sorted). -/
def mapLookup (k : List Char) : List (List Char × NmeaRecord) → Option NmeaRecord
  | [] => none
  | (k', v') :: t => if k = k' then some v' else mapLookup k t

/-- `dedup_last_write_wins` from `dedup.cpp`: write every record into an
ordered map keyed by timestamp (later writes overwriting earlier ones), then
read the values back in ascending key order. -/
def dedup_last_write_wins (records : List NmeaRecord) : List NmeaRecord :=
  (records.foldl dedupStep []).map Prod.snd

/-- The keep condition of `dedup_spatial`'s loop: the candidate differs from
the last kept record by more than `eps` in latitude or in longitude. -/
def farApart (eps : ℚ) (prev cur : NmeaRecord) : Prop :=
  eps < |cur.latitude - prev.latitude| ∨ eps < |cur.longitude - prev.longitude|

instance (eps : ℚ) (prev cur : NmeaRecord) : Decidable (farApart eps prev cur) := by
  unfold farApart
  exact inferInstance

/-- The scanning loop of `dedup_spatial`: `prev` is the most recently kept
record (`result.back()`); a record is kept exactly when `farApart`. -/
def dedupSpatialGo (eps : ℚ) : NmeaRecord → List NmeaRecord → List NmeaRecord
  | _, [] => []
  | prev, cur :: rest =>
    if farApart eps prev cur then cur :: dedupSpatialGo eps cur rest
    else dedupSpatialGo eps prev rest

/-- `dedup_spatial` from `dedup.cpp`: empty in, empty out; otherwise keep the
first record and scan the rest against the last kept one. -/
def dedup_spatial (records : List NmeaRecord) (eps : ℚ) : List NmeaRecord :=
  match records with
  | [] => []
  | r :: rest => r :: dedupSpatialGo eps r rest

/-- Round to the nearest integer, ties to even: the correct rounding glibc's
`printf`-family formatting applies to the (here exact) value. -/
def rne (x : ℚ) : Int :=
  let f := ⌊x⌋
  let r := x - (f : ℚ)
  if r < 1 / 2 then f
  else if 1 / 2 < r then f + 1
  else if f % 2 = 0 then f else f + 1

/-- Decimal digits of a natural number, most significant first (`"0"` for 0),
as stream insertion of the integral part prints them. -/
def natDigits (n : Nat) : List Char :=
  if h : n < 10 then [Char.ofNat (48 + n)]
  else natDigits (n / 10) ++ [Char.ofNat (48 + n % 10)]
decreasing_by exact Nat.div_lt_self (by omega) (by omega)

/-- Exactly six decimal digits of `n < 10^6`, zero padded. -/
def pad6 (n : Nat) : List Char :=
  [Char.ofNat (48 + n / 100000 % 10), Char.ofNat (48 + n / 10000 % 10),
   Char.ofNat (48 + n / 1000 % 10), Char.ofNat (48 + n / 100 % 10),
   Char.ofNat (48 + n / 10 % 10), Char.ofNat (48 + n % 10)]

/-- Fixed-point rendering of a non-negative value with six decimals. -/
def formatFixed6Mag (x : ℚ) : List Char :=
  let n := (rne (x * 1000000)).toNat
  natDigits (n / 1000000) ++ '.' :: pad6 (n % 1000000)

/-- Models `std::ostringstream << std::fixed << std::setprecision(6) << x`
for a finite double `x`, the value taken exactly: an optional minus sign, the
integral digits, `'.'`, and exactly six fractional digits, correctly
rounded. -/
def formatFixed6 (x : ℚ) : List Char :=
  if x < 0 then '-' :: formatFixed6Mag (-x) else formatFixed6Mag x

/-- One `'/' << latitude << ',' << longitude` segment of the URL loop. -/
def segmentOf (pt : NmeaRecord) : List Char :=
  '/' :: formatFixed6 pt.latitude ++ ',' :: formatFixed6 pt.longitude

/-- `build_google_maps_url` from `output.cpp`: empty route gives the empty
string, otherwise the fixed base followed by one segment per record. -/
def build_google_maps_url (route : List NmeaRecord) : List Char :=
  if route = [] then []
  else route.foldl (fun acc pt => acc ++ segmentOf pt) "https://www.google.com/maps/dir".toList

/-- Formalizes the specification's notion of a numeric string: an optional
sign, then decimal digits with at most one decimal point, at least one digit,
and nothing else. -/
def isNumericStr (s : List Char) : Bool :=
  let s1 := if s.head? = some '-' ∨ s.head? = some '+' then s.tail else s
  let ip := s1.takeWhile fun c => isDigitC c
  let r := s1.dropWhile fun c => isDigitC c
  if r = [] then decide (ip ≠ [])
  else if r.head? = some '.' then
    (decide (ip ≠ []) || decide (r.tail ≠ [])) && r.tail.all fun c => isDigitC c
  else false

-- ─── Helper lemmas: characters ───

theorem isDigitC_isCSpace {c : Char} (h : isDigitC c = true) : isCSpace c = false := by
  simp only [isDigitC, Bool.and_eq_true, decide_eq_true_eq] at h
  simp only [isCSpace, Bool.or_eq_false_iff, decide_eq_false_iff_not]
  omega

theorem isDigitC_ne_minus {c : Char} (h : isDigitC c = true) : c ≠ '-' :=
  fun hc => absurd (hc ▸ h) (by decide)

theorem isDigitC_ne_plus {c : Char} (h : isDigitC c = true) : c ≠ '+' :=
  fun hc => absurd (hc ▸ h) (by decide)

theorem isDigitC_ne_dot {c : Char} (h : isDigitC c = true) : c ≠ '.' :=
  fun hc => absurd (hc ▸ h) (by decide)

theorem isHexDigitC_isCSpace {c : Char} (h : isHexDigitC c = true) : isCSpace c = false := by
  simp only [isHexDigitC, Bool.or_eq_true, Bool.and_eq_true, decide_eq_true_eq] at h
  simp only [isCSpace, Bool.or_eq_false_iff, decide_eq_false_iff_not]
  omega

theorem isHexDigitC_ne_minus {c : Char} (h : isHexDigitC c = true) : c ≠ '-' :=
  fun hc => absurd (hc ▸ h) (by decide)

theorem isHexDigitC_ne_plus {c : Char} (h : isHexDigitC c = true) : c ≠ '+' :=
  fun hc => absurd (hc ▸ h) (by decide)

theorem hexVal_lt_16 {c : Char} (h : isHexDigitC c = true) : hexVal c < 16 := by
  simp only [isHexDigitC, Bool.or_eq_true, Bool.and_eq_true, decide_eq_true_eq] at h
  unfold hexVal
  split
  · next hd => simp only [Bool.and_eq_true, decide_eq_true_eq] at hd; omega
  · split
    · next hd => simp only [Bool.and_eq_true, decide_eq_true_eq] at hd; omega
    · split
      · next hd => simp only [Bool.and_eq_true, decide_eq_true_eq] at hd; omega
      · omega

-- ─── Helper lemmas: takeWhile / dropWhile ───

theorem takeWhile_all {p : Char → Bool} : ∀ {l : List Char}, (∀ c ∈ l, p c = true) →
    l.takeWhile p = l
  | [], _ => rfl
  | c :: t, h => by
    simp only [List.takeWhile_cons, h c (List.mem_cons_self c t), if_true]
    exact congrArg (c :: ·) (takeWhile_all fun x hx => h x (List.mem_cons_of_mem c hx))

theorem dropWhile_all {p : Char → Bool} : ∀ {l : List Char}, (∀ c ∈ l, p c = true) →
    l.dropWhile p = []
  | [], _ => rfl
  | c :: t, h => by
    simp only [List.dropWhile_cons, h c (List.mem_cons_self c t), if_true]
    exact dropWhile_all fun x hx => h x (List.mem_cons_of_mem c hx)

theorem takeWhile_append_stop {p : Char → Bool} (d : Char) (r : List Char) (hd : p d = false) :
    ∀ (l : List Char), (∀ c ∈ l, p c = true) → (l ++ d :: r).takeWhile p = l
  | [], _ => by simp [List.takeWhile_cons, hd]
  | c :: t, h => by
    simp only [List.cons_append, List.takeWhile_cons, h c (List.mem_cons_self c t), if_true]
    exact congrArg (c :: ·) (takeWhile_append_stop d r hd t fun x hx => h x (List.mem_cons_of_mem c hx))

theorem dropWhile_append_stop {p : Char → Bool} (d : Char) (r : List Char) (hd : p d = false) :
    ∀ (l : List Char), (∀ c ∈ l, p c = true) → (l ++ d :: r).dropWhile p = d :: r
  | [], _ => by simp [List.dropWhile_cons, hd]
  | c :: t, h => by
    simp only [List.cons_append, List.dropWhile_cons, h c (List.mem_cons_self c t), if_true]
    exact dropWhile_append_stop d r hd t fun x hx => h x (List.mem_cons_of_mem c hx)

-- ─── Helper lemmas: stod and nmea_to_decimal ───

theorem charCI_digit {c lo : Char} (h : isDigitC c = true) (hlo : 96 < lo.toNat) :
    charCI c lo = false := by
  simp only [isDigitC, Bool.and_eq_true, decide_eq_true_eq] at h
  simp only [charCI, Bool.or_eq_false_iff, Bool.and_eq_false_iff, decide_eq_false_iff_not]
  omega

theorem prefixCI_inf_digit {c : Char} (h : isDigitC c = true) (t : List Char) :
    prefixCI ['i', 'n', 'f'] (c :: t) = false := by
  have hci : charCI c 'i' = false := charCI_digit h (by decide)
  simp [prefixCI, hci]

theorem prefixCI_nan_digit {c : Char} (h : isDigitC c = true) (t : List Char) :
    prefixCI ['n', 'a', 'n'] (c :: t) = false := by
  have hci : charCI c 'n' = false := charCI_digit h (by decide)
  simp [prefixCI, hci]

theorem prefixCI_0x_digits : ∀ {ds : List Char}, (∀ c ∈ ds, isDigitC c = true) →
    prefixCI ['0', 'x'] ds = false
  | [], _ => rfl
  | [c], _ => by simp [prefixCI]
  | c :: d :: t, h => by
    have hd : isDigitC d = true := h d (by simp)
    have hdx : charCI d 'x' = false := charCI_digit hd (by decide)
    simp [prefixCI, hdx]

theorem digitsVal_from : ∀ (l : List Char) (a : Nat),
    l.foldl (fun a c => 10 * a + (c.toNat - 48)) a = a * 10 ^ l.length + digitsVal l
  | [], a => by simp [digitsVal]
  | c :: t, a => by
    rw [List.foldl_cons, digitsVal_from t (10 * a + (c.toNat - 48))]
    rw [show digitsVal (c :: t) = (c.toNat - 48) * 10 ^ t.length + digitsVal t by
      rw [digitsVal, List.foldl_cons, digitsVal_from t (10 * 0 + (c.toNat - 48))]
      ring_nf]
    simp [List.length_cons, pow_succ]
    ring

theorem digitsVal_append (a b : List Char) :
    digitsVal (a ++ b) = digitsVal a * 10 ^ b.length + digitsVal b := by
  rw [digitsVal, List.foldl_append, ← digitsVal, digitsVal_from]

theorem sciVal_zero_exp (base m : Nat) : sciVal base m 0 = (m : ℚ) := by
  simp [sciVal]

theorem sciVal_dec_split (A B n : Nat) :
    sciVal 10 (A * 10 ^ n + B) (-(n : ℤ)) = (A : ℚ) + (B : ℚ) / 10 ^ n := by
  have h10 : ((10 : ℕ) : ℚ) = (10 : ℚ) := by norm_num
  rw [sciVal, zpow_neg, zpow_natCast, h10]
  have hne : ((10 : ℚ) ^ n) ≠ 0 := by positivity
  field_simp

theorem stod_digits {ds : List Char} (h : ∀ c ∈ ds, isDigitC c = true) (hne : ds ≠ [])
    (hr : stodOutOfRange 10 (digitsVal ds) 0 = false) :
    stod ds = some (DVal.fin (digitsVal ds : ℚ)) := by
  obtain ⟨c, t, rfl⟩ := List.exists_cons_of_ne_nil hne
  have hc : isDigitC c = true := h c (List.mem_cons_self c t)
  have hdrop : (c :: t).dropWhile (fun c => isCSpace c) = c :: t := by
    simp [List.dropWhile_cons, isDigitC_isCSpace hc]
  simp [stod, hdrop, takeWhile_all h, dropWhile_all h,
    isDigitC_ne_minus hc, isDigitC_ne_plus hc,
    prefixCI_inf_digit hc, prefixCI_nan_digit hc, prefixCI_0x_digits h,
    hr, sciVal_zero_exp]

theorem stod_dot {ds fs : List Char} (hds : ∀ c ∈ ds, isDigitC c = true)
    (hfs : ∀ c ∈ fs, isDigitC c = true) (hne : ds ≠ [] ∨ fs ≠ [])
    (hr : stodOutOfRange 10 (digitsVal (ds ++ fs)) (-(fs.length : ℤ)) = false) :
    stod (ds ++ '.' :: fs) =
      some (DVal.fin ((digitsVal ds : ℚ) + (digitsVal fs : ℚ) / (10 : ℚ) ^ fs.length)) := by
  have hsplit : sciVal 10 (digitsVal (ds ++ fs)) (-(fs.length : ℤ))
      = (digitsVal ds : ℚ) + (digitsVal fs : ℚ) / (10 : ℚ) ^ fs.length := by
    rw [digitsVal_append, sciVal_dec_split]
  match ds, hne with
  | [], hne =>
    have hfne : fs ≠ [] := by
      rcases hne with h | h
      · exact absurd rfl h
      · exact h
    have h1 : isCSpace '.' = false := by decide
    have h2 : isDigitC '.' = false := by decide
    have h3 : ('.' : Char) ≠ '-' := by decide
    have h4 : ('.' : Char) ≠ '+' := by decide
    have h5 : charCI '.' 'i' = false := by decide
    have h6 : charCI '.' 'n' = false := by decide
    have h7 : charCI '.' '0' = false := by decide
    simp only [List.nil_append] at hr hsplit ⊢
    have hdv0 : (digitsVal ([] : List Char) : ℚ) = 0 := by simp [digitsVal]
    rw [hdv0, zero_add] at hsplit ⊢
    simp [stod, List.dropWhile_cons, List.takeWhile_cons, h1, h2, h3, h4, h5, h6, h7,
      prefixCI, takeWhile_all hfs, dropWhile_all hfs, hfne, hr, hsplit]
  | c :: t, _ =>
    have hc : isDigitC c = true := hds c (List.mem_cons_self c t)
    have hcs : isCSpace c = false := isDigitC_isCSpace hc
    have htake := takeWhile_append_stop (p := fun c => isDigitC c) '.' fs (by decide) (c :: t) hds
    have hdrop2 := dropWhile_append_stop (p := fun c => isDigitC c) '.' fs (by decide) (c :: t) hds
    simp only [List.cons_append] at htake hdrop2 hr hsplit
    have hpx : prefixCI ['0', 'x'] (c :: (t ++ '.' :: fs)) = false := by
      match t, hds with
      | [], hds =>
        simp only [List.nil_append]
        have h7 : charCI '.' 'x' = false := by decide
        simp [prefixCI, h7]
      | d :: t', hds =>
        have hd : isDigitC d = true := hds d (by simp)
        have hdx : charCI d 'x' = false := charCI_digit hd (by decide)
        simp [prefixCI, hdx]
    simp [stod, List.dropWhile_cons, hcs, htake, hdrop2, takeWhile_all hfs, dropWhile_all hfs,
      isDigitC_ne_minus hc, isDigitC_ne_plus hc,
      prefixCI_inf_digit hc, prefixCI_nan_digit hc, hpx, hr, hsplit]

theorem stod_hex_digits {hs : List Char} (h : ∀ c ∈ hs, isHexDigitC c = true) (hne : hs ≠ [])
    (hr : stodOutOfRange 2 (hexDigitsVal hs) 0 = false) :
    stod ('0' :: 'x' :: hs) = some (DVal.fin (hexDigitsVal hs : ℚ)) := by
  have c1 : charCI '0' 'i' = false := by decide
  have c2 : charCI '0' 'n' = false := by decide
  have c3 : charCI '0' '0' = true := by decide
  have c4 : charCI 'x' 'x' = true := by decide
  have m0 : isCSpace '0' = false := by decide
  have m1 : ¬(('0' : Char) = '-') := by decide
  have m2 : ¬(('0' : Char) = '+') := by decide
  simp [stod, List.dropWhile_cons, prefixCI, c1, c2, c3, c4, m0, m1, m2,
    takeWhile_all h, dropWhile_all h, hne, hr, sciVal_zero_exp]

theorem nmea_to_decimal_eq (hem : Char) {raw : List Char} {d : Nat} {deg mins : ℚ}
    (hdot : findDot raw = some d) (hd2 : 2 ≤ d)
    (hdeg : stod (raw.take (d - 2)) = some (DVal.fin deg))
    (hmins : stod (raw.drop (d - 2)) = some (DVal.fin mins)) :
    nmea_to_decimal raw hem =
      (if hem = 'S' ∨ hem = 'W' then DVal.fin (-(deg + mins / 60))
       else DVal.fin (deg + mins / 60)) := by
  have hraw : raw ≠ [] := by
    intro h
    rw [h] at hdot
    simp [findDot] at hdot
  simp only [nmea_to_decimal, if_neg hraw, hdot]
  rw [if_neg (by omega)]
  simp only [hdeg, hmins]
  by_cases hh : hem = 'S' ∨ hem = 'W'
  · rw [if_pos hh, if_pos hh]
    rfl
  · rw [if_neg hh, if_neg hh]
    rfl

-- ─── C4 ───

set_option maxRecDepth 100000 in
/-- C4: for every coordinate string whose first decimal point has at least two
characters before it and whose degree portion (all before the last two
characters preceding the point) and minute portion (those two characters and
the rest) both convert to finite values, `nmea_to_decimal` returns
`degrees + minutes / 60`, negated exactly for hemisphere `'S'` or `'W'`; in
particular `nmea_to_decimal "4807.038" 'N' = 48 + 7.038/60` and
`nmea_to_decimal "01131.000" 'W' = -(11 + 31.000/60)`. -/
theorem nmea_to_decimal_spec :
    (∀ (raw : List Char) (hem : Char) (d : Nat) (deg mins : ℚ),
        findDot raw = some d → 2 ≤ d →
        stod (raw.take (d - 2)) = some (DVal.fin deg) →
        stod (raw.drop (d - 2)) = some (DVal.fin mins) →
        nmea_to_decimal raw hem =
          (if hem = 'S' ∨ hem = 'W' then DVal.fin (-(deg + mins / 60))
           else DVal.fin (deg + mins / 60)))
    ∧ nmea_to_decimal ("4807.038".toList) 'N' = DVal.fin (48 + (7038 / 1000 : ℚ) / 60)
    ∧ nmea_to_decimal ("01131.000".toList) 'W' = DVal.fin (-(11 + (31 : ℚ) / 60)) := by
  refine ⟨fun raw hem d deg mins h1 h2 h3 h4 => nmea_to_decimal_eq hem h1 h2 h3 h4, ?_, ?_⟩
  · have h1 : findDot ("4807.038".toList) = some 4 := by decide
    have hdeg : stod (("4807.038".toList).take (4 - 2)) = some (DVal.fin (digitsVal ['4', '8'] : ℚ)) := by
      have ht : ("4807.038".toList).take (4 - 2) = ['4', '8'] := by decide
      rw [ht]
      exact stod_digits (by decide) (by decide) (by decide)
    have hmins : stod (("4807.038".toList).drop (4 - 2)) =
        some (DVal.fin ((digitsVal ['0', '7'] : ℚ) +
          (digitsVal ['0', '3', '8'] : ℚ) / (10 : ℚ) ^ (3 : ℕ))) := by
      have ht : ("4807.038".toList).drop (4 - 2) = ['0', '7'] ++ '.' :: ['0', '3', '8'] := by decide
      rw [ht]
      exact stod_dot (by decide) (by decide) (Or.inl (by decide)) (by decide)
    have h := nmea_to_decimal_eq 'N' h1 (by norm_num) hdeg hmins
    rw [h, if_neg (by decide : ¬('N' = 'S' ∨ 'N' = 'W'))]
    have e1 : digitsVal ['4', '8'] = 48 := by decide
    have e2 : digitsVal ['0', '7'] = 7 := by decide
    have e3 : digitsVal ['0', '3', '8'] = 38 := by decide
    rw [e1, e2, e3]
    norm_num
  · have h1 : findDot ("01131.000".toList) = some 5 := by decide
    have hdeg : stod (("01131.000".toList).take (5 - 2)) =
        some (DVal.fin (digitsVal ['0', '1', '1'] : ℚ)) := by
      have ht : ("01131.000".toList).take (5 - 2) = ['0', '1', '1'] := by decide
      rw [ht]
      exact stod_digits (by decide) (by decide) (by decide)
    have hmins : stod (("01131.000".toList).drop (5 - 2)) =
        some (DVal.fin ((digitsVal ['3', '1'] : ℚ) +
          (digitsVal ['0', '0', '0'] : ℚ) / (10 : ℚ) ^ (3 : ℕ))) := by
      have ht : ("01131.000".toList).drop (5 - 2) = ['3', '1'] ++ '.' :: ['0', '0', '0'] := by decide
      rw [ht]
      exact stod_dot (by decide) (by decide) (Or.inl (by decide)) (by decide)
    have h := nmea_to_decimal_eq 'W' h1 (by norm_num) hdeg hmins
    rw [h, if_pos (Or.inr rfl)]
    have e1 : digitsVal ['0', '1', '1'] = 11 := by decide
    have e2 : digitsVal ['3', '1'] = 31 := by decide
    have e3 : digitsVal ['0', '0', '0'] = 0 := by decide
    rw [e1, e2, e3]
    norm_num

-- ─── C6 ───

set_option maxRecDepth 100000 in
/-- C6 counterexample: non-numeric degree substrings need not make
`nmea_to_decimal` fail, because `std::stod` converts the longest `strtod`
prefix.  The non-numeric `"1a"` converts to 1 and the coordinate `"1a34.0"`
is accepted as `1 + 34.0/60`; an `"inf"` prefix converts to infinity, so
`"inf00.0"` yields an accepted record with an infinite latitude; a C99 hex
prefix converts too (`"0x1A"` is 26).  Conversely `std::stod` throws
`out_of_range` on the numeric `"55.5e999"` (overflow) and `"1e-400"`
(underflow). -/
theorem nmea_nonnumeric_counterexample :
    isNumericStr ("1a".toList) = false
    ∧ ("1a34.0".toList).take 2 = "1a".toList
    ∧ nmea_to_decimal ("1a34.0".toList) 'N' = DVal.fin (1 + (34 : ℚ) / 60)
    ∧ stod ("inf".toList) = some DVal.pinf
    ∧ nmea_to_decimal ("inf00.0".toList) 'N' = DVal.pinf
    ∧ (parse_gprmc ("$GPRMC,123519,A,inf00.0,N,01131.000,E,022.4*XX".toList)).isSome = true
    ∧ stod ("0x1A".toList) = some (DVal.fin 26)
    ∧ stod ("55.5e999".toList) = none
    ∧ stod ("1e-400".toList) = none := by
  refine ⟨by decide, by decide, ?_, by decide, by decide, by decide, ?_, by decide, by decide⟩
  · have h1 : findDot ("1a34.0".toList) = some 4 := by decide
    have hdeg : stod (("1a34.0".toList).take (4 - 2)) = some (DVal.fin (digitsVal ['1'] : ℚ)) := by
      have ht : ("1a34.0".toList).take (4 - 2) = ['1', 'a'] := by decide
      rw [ht]
      have a1 : isCSpace '1' = false := by decide
      have a2 : ('1' : Char) ≠ '-' := by decide
      have a3 : ('1' : Char) ≠ '+' := by decide
      have a4 : isDigitC '1' = true := by decide
      have a5 : isDigitC 'a' = false := by decide
      have a6 : ('a' : Char) ≠ '.' := by decide
      have a7 : ('a' : Char) ≠ 'e' := by decide
      have a8 : ('a' : Char) ≠ 'E' := by decide
      have a9 : digitsVal [] = 0 := by decide
      have b1 : prefixCI ['i', 'n', 'f'] ['1', 'a'] = false := by decide
      have b2 : prefixCI ['n', 'a', 'n'] ['1', 'a'] = false := by decide
      have b3 : prefixCI ['0', 'x'] ['1', 'a'] = false := by decide
      have b4 : stodOutOfRange 10 (digitsVal ['1']) 0 = false := by decide
      have b5 : digitsVal (['1'] ++ []) = digitsVal ['1'] := by decide
      simp [stod, List.dropWhile_cons, List.takeWhile_cons, a1, a2, a3, a4, a5, a6, a7, a8, a9,
        b1, b2, b3, b4, b5, sciVal_zero_exp]
    have hmins : stod (("1a34.0".toList).drop (4 - 2)) =
        some (DVal.fin ((digitsVal ['3', '4'] : ℚ) +
          (digitsVal ['0'] : ℚ) / (10 : ℚ) ^ (1 : ℕ))) := by
      have ht : ("1a34.0".toList).drop (4 - 2) = ['3', '4'] ++ '.' :: ['0'] := by decide
      rw [ht]
      exact stod_dot (by decide) (by decide) (Or.inl (by decide)) (by decide)
    have h := nmea_to_decimal_eq 'N' h1 (by norm_num) hdeg hmins
    rw [h, if_neg (by decide : ¬('N' = 'S' ∨ 'N' = 'W'))]
    have e1 : digitsVal ['1'] = 1 := by decide
    have e2 : digitsVal ['3', '4'] = 34 := by decide
    have e3 : digitsVal ['0'] = 0 := by decide
    rw [e1, e2, e3]
    norm_num
  · have ht : "0x1A".toList = '0' :: 'x' :: ['1', 'A'] := by decide
    rw [ht, stod_hex_digits (by decide) (by decide) (by decide)]
    have e1 : hexDigitsVal ['1', 'A'] = 26 := by decide
    rw [e1]
    norm_num

/-- C6 (amended): a degree or minute substring on which `strtod` finds no
convertible prefix (no decimal or hexadecimal form, nor an infinity or nan
form) makes `std::stod` throw `invalid_argument`, and an over- or
underflowing value makes it throw `out_of_range`; either throw — or a nan
result — makes `nmea_to_decimal` return NaN, and a NaN latitude or longitude
conversion makes `parse_gprmc` reject the whole line.  Not every non-numeric
substring fails, however: any convertible prefix is accepted (`"1a"` as 1,
`"0x1A"` as 26, an `"inf"` prefix as an accepted infinite coordinate). -/
theorem nmea_conversion_failure_spec :
    (∀ (raw : List Char) (hem : Char) (d : Nat),
        findDot raw = some d → 2 ≤ d →
        (stod (raw.take (d - 2)) = none ∨ stod (raw.take (d - 2)) = some DVal.nan ∨
          stod (raw.drop (d - 2)) = none ∨ stod (raw.drop (d - 2)) = some DVal.nan) →
        nmea_to_decimal raw hem = DVal.nan)
    ∧ (∀ s : List Char,
        ((nmea_to_decimal (getField s 3) ((getField s 4).headD ' ')).isnan = true ∨
          (nmea_to_decimal (getField s 5) ((getField s 6).headD ' ')).isnan = true) →
        parse_gprmc s = none)
    ∧ nmea_to_decimal ("ab12.0".toList) 'N' = DVal.nan
    ∧ parse_gprmc ("$GPRMC,123519,A,ab12.0,N,01131.000,E,022.4*XX".toList) = none := by
  refine ⟨?_, ?_, by decide, by decide⟩
  · intro raw hem d hdot hd2 hbad
    have hraw : raw ≠ [] := by
      intro h
      rw [h] at hdot
      simp [findDot] at hdot
    simp only [nmea_to_decimal, if_neg hraw, hdot]
    rw [if_neg (by omega)]
    rcases hbad with hb | hb | hb | hb
    · rw [hb]
    · rw [hb]
      rcases hsnd : stod (raw.drop (d - 2)) with _ | m
      · rfl
      · show (if hem = 'S' ∨ hem = 'W' then (DVal.nan.add m.div60).neg
            else DVal.nan.add m.div60) = DVal.nan
        cases m <;> split <;> rfl
    · rcases hfst : stod (raw.take (d - 2)) with _ | v
      · rfl
      · rw [hb]
    · rcases hfst : stod (raw.take (d - 2)) with _ | v
      · rfl
      · rw [hb]
        show (if hem = 'S' ∨ hem = 'W' then (v.add DVal.nan.div60).neg
            else v.add DVal.nan.div60) = DVal.nan
        cases v <;> split <;> rfl
  · intro s hbad
    simp only [getField] at hbad
    simp only [parse_gprmc]
    repeat' split
    all_goals rfl

-- ─── Helper lemmas: rbreakStar and sscanfHex2 ───

theorem rbreakStar_none_iff {l : List Char} : rbreakStar l = none ↔ '*' ∉ l := by
  induction l with
  | nil => simp [rbreakStar]
  | cons c t ih =>
    simp only [rbreakStar, List.mem_cons]
    rcases hr : rbreakStar t with _ | ⟨b, a⟩
    · rw [hr] at ih
      by_cases hcs : c = '*'
      · subst hcs
        simp
      · have h2 : ¬('*' = c) := fun h => hcs h.symm
        simp [hcs, h2, ih.mp rfl]
    · rw [hr] at ih
      have : '*' ∈ t := by
        by_contra h
        exact absurd (ih.mpr h) (by simp)
      simp [this]

theorem rbreakStar_append (b a : List Char) (h : '*' ∉ a) :
    rbreakStar (b ++ '*' :: a) = some (b, a) := by
  induction b with
  | nil =>
    simp [rbreakStar, rbreakStar_none_iff.mpr h]
  | cons c t ih =>
    simp [rbreakStar, ih]

theorem rbreakStar_some {l b a : List Char} (h : rbreakStar l = some (b, a)) :
    l = b ++ '*' :: a ∧ '*' ∉ a := by
  induction l generalizing b a with
  | nil => simp [rbreakStar] at h
  | cons c t ih =>
    simp only [rbreakStar] at h
    rcases hr : rbreakStar t with _ | ⟨b', a'⟩
    · rw [hr] at h
      by_cases hcs : c = '*'
      · subst hcs
        rw [if_pos rfl] at h
        obtain ⟨hb, ha⟩ := Prod.mk.injEq .. ▸ Option.some.inj h
        subst hb
        subst ha
        exact ⟨rfl, rbreakStar_none_iff.mp hr⟩
      · rw [if_neg hcs] at h
        exact absurd h (by simp)
    · rw [hr] at h
      obtain ⟨hb, ha⟩ := Prod.mk.injEq .. ▸ Option.some.inj h
      subst hb
      subst ha
      obtain ⟨ht, hna⟩ := ih hr
      exact ⟨by rw [ht, List.cons_append], hna⟩

theorem sscanfHex2_two_hex {d1 d2 : Char} (r : List Char) (h1 : isHexDigitC d1 = true)
    (h2 : isHexDigitC d2 = true) :
    sscanfHex2 (d1 :: d2 :: r) = some (16 * hexVal d1 + hexVal d2) := by
  have hs : isCSpace d1 = false := isHexDigitC_isCSpace h1
  simp [sscanfHex2, List.dropWhile_cons, hs, isHexDigitC_ne_minus h1, isHexDigitC_ne_plus h1,
    h1, h2]

-- ─── C1 ───

/-- C1: on a line that starts with `'$'` and whose last `'*'` is followed by
at least two characters the first two of which are hexadecimal digits,
`verify_checksum` answers `ok` exactly when the XOR-fold of the bytes
strictly between the `'$'` and that `'*'` equals the declared two-digit hex
byte, and `mismatch` otherwise; instantiated at `"$A*41"` (`'A' = 0x41`,
matching) and `"$A*40"` (not matching). -/
theorem verify_checksum_spec :
    (∀ (bodyText after : List Char) (d1 d2 : Char) (rest : List Char),
        after = d1 :: d2 :: rest → '*' ∉ after →
        isHexDigitC d1 = true → isHexDigitC d2 = true →
        verify_checksum ('$' :: bodyText ++ '*' :: after) =
          (if xorFoldBytes bodyText = 16 * hexVal d1 + hexVal d2 then ChecksumResult.ok
           else ChecksumResult.mismatch))
    ∧ verify_checksum ("$A*41".toList) = ChecksumResult.ok
    ∧ verify_checksum ("$A*40".toList) = ChecksumResult.mismatch := by
  refine ⟨?_, by decide, by decide⟩
  rintro bodyText after d1 d2 rest rfl hstar h1 h2
  have hmod : (16 * hexVal d1 + hexVal d2) % 256 = 16 * hexVal d1 + hexVal d2 :=
    Nat.mod_eq_of_lt (by
      have b1 := hexVal_lt_16 h1
      have b2 := hexVal_lt_16 h2
      omega)
  have hlen : ¬(d1 :: d2 :: rest).length < 2 := by
    simp
  simp [verify_checksum, rbreakStar_append bodyText (d1 :: d2 :: rest) hstar, hlen,
    sscanfHex2_two_hex rest h1 h2, hmod]

-- ─── C5 ───

/-- C5 counterexample: in `"$A*4Z"` the two characters after the last `'*'`
are `'4'` and `'Z'`, and `'Z'` is not a hexadecimal digit, so the claim
demands `incomplete`; the code's `sscanf("%02X")` accepts the single digit
`'4'` and `verify_checksum` answers `mismatch` instead. -/
theorem verify_checksum_c5_counterexample :
    isHexDigitC 'Z' = false
    ∧ verify_checksum ("$A*4Z".toList) = ChecksumResult.mismatch
    ∧ ChecksumResult.mismatch ≠ ChecksumResult.incomplete := by decide

/-- C5 (amended): `verify_checksum` answers `incomplete` exactly when the
first character is not `'$'`, or there is no `'*'`, or fewer than two
characters follow the last `'*'`, or the `sscanf`-style `%02X` conversion of
the text after the last `'*'` fails — that conversion skips leading
whitespace, allows a sign, and succeeds as soon as it finds one hexadecimal
digit, so two characters that do not both form hex digits need not give
`incomplete`. -/
theorem verify_checksum_incomplete_iff (s : List Char) :
    verify_checksum s = ChecksumResult.incomplete ↔
      (s.head? ≠ some '$' ∨
        rbreakStar s.tail = none ∨
        ∃ b a, rbreakStar s.tail = some (b, a) ∧ (a.length < 2 ∨ sscanfHex2 a = none)) := by
  match s with
  | [] => simp [verify_checksum, rbreakStar]
  | c0 :: body =>
    by_cases hc : c0 = '$'
    · subst hc
      rcases hr : rbreakStar body with _ | ⟨b, a⟩
      · simp [verify_checksum, hr]
      · by_cases hlen : a.length < 2
        · simp only [verify_checksum, hr, if_pos hlen]
          simp only [ne_eq, List.head?_cons, List.tail_cons, hr]
          refine iff_of_true rfl (Or.inr (Or.inr ⟨b, a, rfl, Or.inl hlen⟩))
        · rcases hsc : sscanfHex2 a with _ | v
          · simp only [verify_checksum, hr, if_neg hlen, hsc]
            simp only [ne_eq, List.head?_cons, List.tail_cons, hr]
            refine iff_of_true (by simp) (Or.inr (Or.inr ⟨b, a, rfl, Or.inr hsc⟩))
          · simp only [verify_checksum, hr, if_neg hlen, hsc]
            constructor
            · intro h
              exfalso
              by_cases hx : xorFoldBytes b = v % 256
              · rw [if_pos hx] at h
                exact absurd h (by decide)
              · rw [if_neg hx] at h
                exact absurd h (by decide)
            · rintro (h | h | ⟨b', a', he, hbad⟩)
              · exact absurd rfl h
              · rw [List.tail_cons, hr] at h
                exact absurd h (by simp)
              · rw [List.tail_cons, hr] at he
                obtain ⟨hb, ha⟩ := Prod.mk.injEq .. ▸ Option.some.inj he
                subst hb
                subst ha
                rcases hbad with hbad | hbad
                · exact absurd hbad hlen
                · rw [hsc] at hbad
                  exact absurd hbad (by simp)
    · simp [verify_checksum, hc]

-- ─── C8 ───

/-- C8: `parse_gprmc` never produces a record when the status field (index 2)
is empty or does not start with the active code `'A'`; in particular the
void-status line `"$GPRMC,123519,V,4807.038,N,01131.000,E,022.4,084.4,230394,003.1,W*XX"`
is rejected. -/
theorem parse_gprmc_status_spec :
    (∀ s : List Char,
        (getField s 2 = [] ∨ (getField s 2).headD ' ' ≠ 'A') → parse_gprmc s = none)
    ∧ parse_gprmc
        ("$GPRMC,123519,V,4807.038,N,01131.000,E,022.4,084.4,230394,003.1,W*XX".toList)
        = none := by
  refine ⟨?_, by decide⟩
  intro s hbad
  simp only [getField, List.getD_eq_getElem?_getD, List.headD_eq_head?_getD] at hbad
  simp [parse_gprmc, hbad]

-- ─── C10 ───

/-- C10: `parse_gprmc` is atomic in its out-parameter: whenever it returns
`false` the caller's record is returned unchanged — every field assignment
happens only after all validation checks have passed; instantiated at an
unsupported `$GPGGA` line. -/
theorem parse_gprmc_impl_atomic :
    (∀ (s : List Char) (out : NmeaRecord),
        (parse_gprmc_impl s out).fst = false → (parse_gprmc_impl s out).snd = out)
    ∧ parse_gprmc_impl ("$GPGGA,1,2".toList) ⟨"t".toList, 5, 6, 7⟩
        = (false, ⟨"t".toList, 5, 6, 7⟩) := by
  refine ⟨?_, by decide⟩
  intro s out
  simp only [parse_gprmc_impl]
  split
  · intro _
    rfl
  split
  · intro _
    rfl
  split
  · intro _
    rfl
  split
  · intro _
    rfl
  split
  · intro _
    rfl
  split
  · intro _
    rfl
  · intro h
    simp at h

-- ─── Helper lemmas: dedup_spatial ───

theorem dedupSpatialGo_chain (eps : ℚ) :
    ∀ (prev : NmeaRecord) (l : List NmeaRecord),
      List.Chain (farApart eps) prev (dedupSpatialGo eps prev l)
  | _, [] => List.Chain.nil
  | prev, cur :: rest => by
    by_cases h : farApart eps prev cur
    · simp only [dedupSpatialGo, if_pos h]
      exact List.Chain.cons h (dedupSpatialGo_chain eps cur rest)
    · simp only [dedupSpatialGo, if_neg h]
      exact dedupSpatialGo_chain eps prev rest

theorem dedupSpatialGo_of_chain (eps : ℚ) :
    ∀ (prev : NmeaRecord) (l : List NmeaRecord),
      List.Chain (farApart eps) prev l → dedupSpatialGo eps prev l = l
  | _, [], _ => rfl
  | prev, cur :: rest, h => by
    rcases h with _ | ⟨hfar, hrest⟩
    simp only [dedupSpatialGo, if_pos hfar]
    exact congrArg (cur :: ·) (dedupSpatialGo_of_chain eps cur rest hrest)

-- ─── C3 ───

/-- C3: `dedup_spatial` maps the empty input to the empty output, always
keeps the first record, and — scanning with `prev` the most recently KEPT
record — keeps a later record exactly when its latitude or its longitude
differs from `prev`'s by strictly more than `eps`; consequently two
consecutive points at exactly `eps` in both axes are not both kept, while two
points farther than `eps` apart in one axis are both kept. -/
theorem dedup_spatial_spec :
    (∀ eps : ℚ, dedup_spatial [] eps = [])
    ∧ (∀ (r : NmeaRecord) (rest : List NmeaRecord) (eps : ℚ),
        (dedup_spatial (r :: rest) eps).head? = some r)
    ∧ (∀ (eps : ℚ) (prev cur : NmeaRecord) (rest : List NmeaRecord),
        farApart eps prev cur →
          dedupSpatialGo eps prev (cur :: rest) = cur :: dedupSpatialGo eps cur rest)
    ∧ (∀ (eps : ℚ) (prev cur : NmeaRecord) (rest : List NmeaRecord),
        ¬farApart eps prev cur →
          dedupSpatialGo eps prev (cur :: rest) = dedupSpatialGo eps prev rest)
    ∧ (∀ (a b : NmeaRecord) (eps : ℚ),
        |b.latitude - a.latitude| = eps → |b.longitude - a.longitude| = eps →
          dedup_spatial [a, b] eps = [a])
    ∧ (∀ (a b : NmeaRecord) (eps : ℚ),
        farApart eps a b → dedup_spatial [a, b] eps = [a, b]) := by
  refine ⟨fun _ => rfl, fun r rest eps => rfl, ?_, ?_, ?_, ?_⟩
  · intro eps prev cur rest h
    simp only [dedupSpatialGo, if_pos h]
  · intro eps prev cur rest h
    simp only [dedupSpatialGo, if_neg h]
  · intro a b eps hlat hlon
    have h : ¬farApart eps a b := by
      rintro (h | h)
      · rw [hlat] at h
        exact lt_irrefl eps h
      · rw [hlon] at h
        exact lt_irrefl eps h
    simp only [dedup_spatial, dedupSpatialGo, if_neg h]
  · intro a b eps h
    simp only [dedup_spatial, dedupSpatialGo, if_pos h]

-- ─── C7 ───

/-- C7: `dedup_spatial` is idempotent — its output is a fixed point: every
record it keeps is farther than `eps` from the previously kept one, so a
second pass keeps everything. -/
theorem dedup_spatial_idempotent (records : List NmeaRecord) (eps : ℚ) :
    dedup_spatial (dedup_spatial records eps) eps = dedup_spatial records eps := by
  match records with
  | [] => rfl
  | r :: rest =>
    simp only [dedup_spatial]
    exact congrArg (r :: ·)
      (dedupSpatialGo_of_chain eps r (dedupSpatialGo eps r rest) (dedupSpatialGo_chain eps r rest))

-- ─── Helper lemmas: lexLt, an order on timestamp keys ───

theorem char_toNat_inj {a b : Char} (h : a.toNat = b.toNat) : a = b := by
  rw [← Char.ofNat_toNat a, ← Char.ofNat_toNat b, h]

theorem lexLt_nil : ∀ b : List Char, lexLt b [] = false
  | [] => rfl
  | _ :: _ => rfl

theorem lexLt_irrefl : ∀ s : List Char, lexLt s s = false
  | [] => rfl
  | c :: t => by simp [lexLt, lexLt_irrefl t]

theorem lexLt_trans : ∀ {a b c : List Char},
    lexLt a b = true → lexLt b c = true → lexLt a c = true
  | _, _, [], _, h2 => absurd h2 (by simp [lexLt_nil])
  | [], _, _ :: _, _, _ => rfl
  | _ :: _, [], _, h1, _ => absurd h1 (by simp [lexLt_nil])
  | x :: s, y :: t, z :: u, h1, h2 => by
    simp only [lexLt] at h1 h2 ⊢
    by_cases hxy : x.toNat < y.toNat
    · by_cases hyz : y.toNat < z.toNat
      · rw [if_pos (by omega)]
      · by_cases hzy : z.toNat < y.toNat
        · rw [if_neg hyz, if_pos hzy] at h2
          exact absurd h2 (by simp)
        · rw [if_pos (by omega)]
    · rw [if_neg hxy] at h1
      by_cases hyx : y.toNat < x.toNat
      · rw [if_pos hyx] at h1
        exact absurd h1 (by simp)
      · rw [if_neg hyx] at h1
        by_cases hyz : y.toNat < z.toNat
        · rw [if_pos (by omega)]
        · rw [if_neg hyz] at h2
          by_cases hzy : z.toNat < y.toNat
          · rw [if_pos hzy] at h2
            exact absurd h2 (by simp)
          · rw [if_neg hzy] at h2
            rw [if_neg (by omega), if_neg (by omega)]
            exact lexLt_trans h1 h2

theorem lexLt_total_eq : ∀ {a b : List Char}, lexLt a b = false → lexLt b a = false → a = b
  | [], [], _, _ => rfl
  | [], _ :: _, h1, _ => absurd h1 (by simp [lexLt])
  | _ :: _, [], _, h2 => absurd h2 (by simp [lexLt])
  | x :: s, y :: t, h1, h2 => by
    simp only [lexLt] at h1 h2
    by_cases hxy : x.toNat < y.toNat
    · rw [if_pos hxy] at h1
      exact absurd h1 (by simp)
    · by_cases hyx : y.toNat < x.toNat
      · rw [if_pos hyx] at h2
        exact absurd h2 (by simp)
      · rw [if_neg hxy, if_neg hyx] at h1
        rw [if_neg hyx, if_neg hxy] at h2
        have hx : x = y := char_toNat_inj (by omega)
        subst hx
        exact congrArg (x :: ·) (lexLt_total_eq h1 h2)

-- ─── Helper lemmas: the ordered map of dedup_last_write_wins ───

theorem mapInsert_mem {k : List Char} {v : NmeaRecord} :
    ∀ {m : List (List Char × NmeaRecord)} {x}, x ∈ mapInsert k v m → x = (k, v) ∨ x ∈ m
  | [], x, h => by simpa [mapInsert] using h
  | (k', v') :: t, x, h => by
    cases h1 : lexLt k k' with
    | true =>
      rw [mapInsert, if_pos h1] at h
      rcases List.mem_cons.mp h with h | h
      · exact Or.inl h
      · exact Or.inr h
    | false =>
      cases h2 : lexLt k' k with
      | true =>
        rw [mapInsert, if_neg (by simp [h1]), if_pos h2] at h
        rcases List.mem_cons.mp h with h | h
        · exact Or.inr (List.mem_cons.mpr (Or.inl h))
        · rcases mapInsert_mem h with h | h
          · exact Or.inl h
          · exact Or.inr (List.mem_cons.mpr (Or.inr h))
      | false =>
        rw [mapInsert, if_neg (by simp [h1]), if_neg (by simp [h2])] at h
        rcases List.mem_cons.mp h with h | h
        · exact Or.inl h
        · exact Or.inr (List.mem_cons.mpr (Or.inr h))

theorem mapInsert_pairwise {k : List Char} {v : NmeaRecord} :
    ∀ {m : List (List Char × NmeaRecord)},
      m.Pairwise (fun e1 e2 => lexLt e1.1 e2.1 = true) →
      (mapInsert k v m).Pairwise (fun e1 e2 => lexLt e1.1 e2.1 = true)
  | [], _ => by simp [mapInsert]
  | (k', v') :: t, hp => by
    obtain ⟨hhead, htail⟩ := List.pairwise_cons.mp hp
    cases h1 : lexLt k k' with
    | true =>
      rw [mapInsert, if_pos h1]
      refine List.pairwise_cons.mpr ⟨?_, hp⟩
      intro e he
      rcases List.mem_cons.mp he with he | he
      · subst he
        exact h1
      · exact lexLt_trans h1 (hhead e he)
    | false =>
      cases h2 : lexLt k' k with
      | true =>
        rw [mapInsert, if_neg (by simp [h1]), if_pos h2]
        refine List.pairwise_cons.mpr ⟨?_, mapInsert_pairwise htail⟩
        intro e he
        rcases mapInsert_mem he with he | he
        · subst he
          exact h2
        · exact hhead e he
      | false =>
        rw [mapInsert, if_neg (by simp [h1]), if_neg (by simp [h2])]
        have hk : k = k' := lexLt_total_eq (by simp [h1]) (by simp [h2])
        subst hk
        exact List.pairwise_cons.mpr ⟨hhead, htail⟩

theorem mapLookup_mapInsert_self (k : List Char) (v : NmeaRecord) :
    ∀ m : List (List Char × NmeaRecord), mapLookup k (mapInsert k v m) = some v
  | [] => by simp [mapInsert, mapLookup]
  | (k', v') :: t => by
    cases h1 : lexLt k k' with
    | true => simp [mapInsert, h1, mapLookup]
    | false =>
      cases h2 : lexLt k' k with
      | true =>
        have hne : ¬k = k' := by
          intro he
          subst he
          rw [lexLt_irrefl] at h2
          exact absurd h2 (by simp)
        simp [mapInsert, h1, h2, mapLookup, hne, mapLookup_mapInsert_self k v t]
      | false => simp [mapInsert, h1, h2, mapLookup]

theorem mapLookup_mapInsert_ne {k k0 : List Char} (hne : k ≠ k0) (v : NmeaRecord) :
    ∀ m : List (List Char × NmeaRecord),
      mapLookup k0 (mapInsert k v m) = mapLookup k0 m
  | [] => by
    have h : ¬k0 = k := fun h => hne h.symm
    simp [mapInsert, mapLookup, h]
  | (k', v') :: t => by
    have h0 : ¬k0 = k := fun h => hne h.symm
    cases h1 : lexLt k k' with
    | true => simp [mapInsert, h1, mapLookup, h0]
    | false =>
      cases h2 : lexLt k' k with
      | true => simp [mapInsert, h1, h2, mapLookup, mapLookup_mapInsert_ne hne v t]
      | false =>
        have hk : k = k' := lexLt_total_eq (by simp [h1]) (by simp [h2])
        subst hk
        simp [mapInsert, h1, h2, mapLookup, h0]

theorem mem_keys_mapInsert (k k0 : List Char) (v : NmeaRecord) :
    ∀ m : List (List Char × NmeaRecord),
      (k0 ∈ (mapInsert k v m).map Prod.fst ↔ k0 = k ∨ k0 ∈ m.map Prod.fst)
  | [] => by simp [mapInsert]
  | (k', v') :: t => by
    cases h1 : lexLt k k' with
    | true =>
      rw [mapInsert, if_pos h1]
      simp only [List.map_cons, List.mem_cons]
    | false =>
      cases h2 : lexLt k' k with
      | true =>
        rw [mapInsert, if_neg (by simp [h1]), if_pos h2]
        simp only [List.map_cons, List.mem_cons, mem_keys_mapInsert k k0 v t]
        tauto
      | false =>
        have hk : k = k' := lexLt_total_eq (by simp [h1]) (by simp [h2])
        subst hk
        rw [mapInsert, if_neg (by simp [h1]), if_neg (by simp [h2])]
        simp only [List.map_cons, List.mem_cons]
        tauto

theorem mapLookup_of_mem_pairwise :
    ∀ {m : List (List Char × NmeaRecord)} {k : List Char} {v : NmeaRecord},
      m.Pairwise (fun e1 e2 => lexLt e1.1 e2.1 = true) → (k, v) ∈ m → mapLookup k m = some v
  | [], k, v, _, hm => absurd hm (List.not_mem_nil _)
  | (k', v') :: t, k, v, hp, hm => by
    obtain ⟨hhead, htail⟩ := List.pairwise_cons.mp hp
    rcases List.mem_cons.mp hm with he | he
    · obtain ⟨hk, hv⟩ := Prod.mk.injEq .. ▸ he
      subst hk
      subst hv
      simp [mapLookup]
    · have hlt : lexLt k' k = true := hhead (k, v) he
      have hne : ¬k = k' := by
        intro h
        subst h
        rw [lexLt_irrefl] at hlt
        exact absurd hlt (by simp)
      rw [mapLookup, if_neg hne]
      exact mapLookup_of_mem_pairwise htail he

theorem foldl_dedupStep_pairwise :
    ∀ (l : List NmeaRecord) (m : List (List Char × NmeaRecord)),
      m.Pairwise (fun e1 e2 => lexLt e1.1 e2.1 = true) →
      (l.foldl dedupStep m).Pairwise (fun e1 e2 => lexLt e1.1 e2.1 = true)
  | [], _, h => h
  | r :: t, m, h => foldl_dedupStep_pairwise t _ (mapInsert_pairwise h)

theorem foldl_dedupStep_entries :
    ∀ (l : List NmeaRecord) (m : List (List Char × NmeaRecord)),
      (∀ e ∈ m, e.2.timestamp = e.1) → ∀ e ∈ l.foldl dedupStep m, e.2.timestamp = e.1
  | [], _, h => h
  | r :: t, m, h =>
    foldl_dedupStep_entries t _ (by
      intro e he
      rcases mapInsert_mem he with he | he
      · subst he
        rfl
      · exact h e he)

theorem foldl_dedupStep_lookup :
    ∀ (l : List NmeaRecord) (m : List (List Char × NmeaRecord)) (k : List Char),
      mapLookup k (l.foldl dedupStep m) =
        match l.reverse.find? (fun x => decide (x.timestamp = k)) with
        | some r => some r
        | none => mapLookup k m
  | [], m, k => by simp
  | r :: t, m, k => by
    rw [List.foldl_cons, foldl_dedupStep_lookup t (dedupStep m r) k, List.reverse_cons,
      List.find?_append]
    cases hf : t.reverse.find? (fun x => decide (x.timestamp = k)) with
    | some r' => simp [Option.or]
    | none =>
      simp only [Option.none_or]
      by_cases hk : r.timestamp = k
      · have hp : (fun x => decide (x.timestamp = k)) r = true := by simp [hk]
        simp only [List.find?_cons, hp]
        rw [dedupStep, hk, mapLookup_mapInsert_self]
      · have hp : (fun x => decide (x.timestamp = k)) r = false := by simp [hk]
        simp only [List.find?_cons, hp]
        rw [dedupStep, mapLookup_mapInsert_ne hk r m]
        simp [List.find?_nil]

theorem foldl_dedupStep_keys :
    ∀ (l : List NmeaRecord) (m : List (List Char × NmeaRecord)) (k : List Char),
      (k ∈ (l.foldl dedupStep m).map Prod.fst ↔
        k ∈ l.map (·.timestamp) ∨ k ∈ m.map Prod.fst)
  | [], m, k => by
    simp only [List.foldl_nil, List.map_nil, List.not_mem_nil, false_or]
  | r :: t, m, k => by
    rw [List.foldl_cons, foldl_dedupStep_keys t (dedupStep m r) k, dedupStep,
      mem_keys_mapInsert r.timestamp k r m, List.map_cons, List.mem_cons]
    tauto

-- ─── C2 ───

/-- C2: `dedup_last_write_wins` returns exactly one record per distinct
timestamp (its output timestamps are strictly increasing in lexicographic
order and cover exactly the input's timestamps), and each output record is
the LAST input record bearing its timestamp; instantiated on timestamps
`["100000", "100000", "100001"]`, where the output is the second and third
input records in that order. -/
theorem dedup_last_write_wins_spec :
    (∀ records : List NmeaRecord,
        ((dedup_last_write_wins records).map (·.timestamp)).Pairwise
            (fun a b => lexLt a b = true)
        ∧ (∀ k, k ∈ (dedup_last_write_wins records).map (·.timestamp) ↔
            k ∈ records.map (·.timestamp))
        ∧ (∀ r ∈ dedup_last_write_wins records,
            records.reverse.find? (fun x => decide (x.timestamp = r.timestamp)) = some r))
    ∧ dedup_last_write_wins
        [⟨"100000".toList, 1, 1, 1⟩, ⟨"100000".toList, 2, 2, 2⟩, ⟨"100001".toList, 3, 3, 3⟩]
        = [⟨"100000".toList, 2, 2, 2⟩, ⟨"100001".toList, 3, 3, 3⟩] := by
  refine ⟨?_, by decide⟩
  intro records
  have hpw : (records.foldl dedupStep []).Pairwise (fun e1 e2 => lexLt e1.1 e2.1 = true) :=
    foldl_dedupStep_pairwise records [] (by simp)
  have hts : ∀ e ∈ records.foldl dedupStep [], e.2.timestamp = e.1 :=
    foldl_dedupStep_entries records [] (by simp)
  have hkeys_eq : (dedup_last_write_wins records).map (·.timestamp)
      = (records.foldl dedupStep []).map Prod.fst := by
    rw [dedup_last_write_wins, List.map_map]
    exact List.map_congr_left fun e he => hts e he
  refine ⟨?_, ?_, ?_⟩
  · rw [hkeys_eq]
    exact hpw.map Prod.fst fun a b h => h
  · intro k
    rw [hkeys_eq, foldl_dedupStep_keys records [] k]
    simp only [List.map_nil, List.not_mem_nil, or_false]
  · intro r hr
    rw [dedup_last_write_wins] at hr
    obtain ⟨e, hem, hesnd⟩ := List.mem_map.mp hr
    have hkey : e.1 = r.timestamp := by
      rw [← hts e hem, hesnd]
    have hmem : (r.timestamp, r) ∈ records.foldl dedupStep [] := by
      have he : e = (r.timestamp, r) := by
        obtain ⟨e1, e2⟩ := e
        simp only at hesnd hkey
        rw [hesnd, hkey]
      rw [← he]
      exact hem
    have hlook : mapLookup r.timestamp (records.foldl dedupStep []) = some r :=
      mapLookup_of_mem_pairwise hpw hmem
    have hfold := foldl_dedupStep_lookup records [] r.timestamp
    rw [hlook] at hfold
    cases hf : records.reverse.find? (fun x => decide (x.timestamp = r.timestamp)) with
    | some r' =>
      rw [hf] at hfold
      exact hfold.symm
    | none =>
      rw [hf] at hfold
      exact Option.noConfusion hfold

-- ─── Helper lemmas: fixed-point formatting ───

theorem digitChar_isDigit (d : Nat) (h : d < 10) : isDigitC (Char.ofNat (48 + d)) = true := by
  interval_cases d <;> decide

theorem natDigits_all (n : Nat) : ∀ c ∈ natDigits n, isDigitC c = true := by
  induction n using Nat.strong_induction_on with
  | _ n ih =>
    intro c hc
    rw [natDigits] at hc
    split at hc
    · next h =>
      simp only [List.mem_singleton] at hc
      subst hc
      exact digitChar_isDigit n h
    · next h =>
      rcases List.mem_append.mp hc with hc | hc
      · exact ih (n / 10) (Nat.div_lt_self (by omega) (by omega)) c hc
      · simp only [List.mem_singleton] at hc
        subst hc
        exact digitChar_isDigit (n % 10) (Nat.mod_lt _ (by omega))

theorem pad6_all (n : Nat) : ∀ c ∈ pad6 n, isDigitC c = true := by
  intro c hc
  simp only [pad6, List.mem_cons, List.not_mem_nil, or_false] at hc
  rcases hc with rfl | rfl | rfl | rfl | rfl | rfl <;>
    exact digitChar_isDigit _ (Nat.mod_lt _ (by omega))

theorem foldl_append_segment :
    ∀ (l : List NmeaRecord) (acc : List Char),
      l.foldl (fun acc pt => acc ++ segmentOf pt) acc = acc ++ (l.map segmentOf).join
  | [], acc => by simp
  | pt :: t, acc => by
    rw [List.foldl_cons, foldl_append_segment t (acc ++ segmentOf pt)]
    simp [List.append_assoc]

-- ─── C9 ───

/-- C9: `build_google_maps_url` maps the empty route to the empty string and
a non-empty route to the literal prefix `https://www.google.com/maps/dir`
followed by one `/lat,lon` segment per record in order; every coordinate is
rendered in fixed-point notation with a `'.'` followed by exactly six digits
(and no `'.'` before it). -/
theorem build_google_maps_url_spec :
    build_google_maps_url [] = []
    ∧ (∀ (r : NmeaRecord) (rest : List NmeaRecord),
        build_google_maps_url (r :: rest) =
          "https://www.google.com/maps/dir".toList ++ ((r :: rest).map segmentOf).join)
    ∧ (∀ q : ℚ, ∃ pre post : List Char,
        formatFixed6 q = pre ++ '.' :: post ∧ post.length = 6 ∧ '.' ∉ pre ∧
          ∀ c ∈ post, isDigitC c = true) := by
  refine ⟨rfl, ?_, ?_⟩
  · intro r rest
    rw [build_google_maps_url, if_neg (by simp)]
    exact foldl_append_segment (r :: rest) _
  · intro q
    by_cases hq : q < 0
    · refine ⟨'-' :: natDigits ((rne (-q * 1000000)).toNat / 1000000),
        pad6 ((rne (-q * 1000000)).toNat % 1000000), ?_, rfl, ?_, pad6_all _⟩
      · rw [formatFixed6, if_pos hq]
        rfl
      · intro hmem
        rcases List.mem_cons.mp hmem with h | h
        · exact absurd h (by decide)
        · exact absurd (natDigits_all _ _ h) (by decide)
    · refine ⟨natDigits ((rne (q * 1000000)).toNat / 1000000),
        pad6 ((rne (q * 1000000)).toNat % 1000000), ?_, rfl, ?_, pad6_all _⟩
      · rw [formatFixed6, if_neg hq]
        rfl
      · intro hmem
        exact absurd (natDigits_all _ _ hmem) (by decide)
